import Mathlib

/-!
Verification development for the secondmind note-taking CLI
(src/secondmind/app.py).  Python strings are modelled as lists of
characters; the pure text-processing core (parse_note,
build_note_from_json, the per-line extraction of import_txt_to_db, the
tag join/split used by add_note_to_db and export_notes_to_json, the
duplicate check of add_note_to_db, and the due-date classification of
view_due_notes) is embedded as executable Lean functions.
-/

/-- Python strings, modelled as lists of characters. -/
abbrev Str := List Char

/-- The literal marker "[due:" used by the codec. -/
def dueMarker : Str := ['[', 'd', 'u', 'e', ':']

/-- Helper for Python str.split() with no separator: accumulator holds the
current token reversed; whitespace runs separate tokens, empties dropped. -/
def splitWsAux : Str → Str → List Str
  | [], acc => if acc.isEmpty then [] else [acc.reverse]
  | c :: rest, acc =>
    if c.isWhitespace then
      if acc.isEmpty then splitWsAux rest [] else acc.reverse :: splitWsAux rest []
    else splitWsAux rest (c :: acc)

/-- Python s.split() (no argument): whitespace-delimited tokens, no empties. -/
def splitWs (s : Str) : List Str := splitWsAux s []

/-- Drop trailing characters satisfying p (used for rstrip). -/
def rdropP (p : Char → Bool) (s : Str) : Str := (s.reverse.dropWhile p).reverse

/-- Python s.strip(): remove leading and trailing whitespace. -/
def stripWs (s : Str) : Str := rdropP Char.isWhitespace (s.dropWhile Char.isWhitespace)

/-- Python s.rstrip("c"): remove all trailing occurrences of character c. -/
def rstripC (c : Char) (s : Str) : Str := rdropP (fun x => x = c) s

/-- Python sep.join(parts). -/
def joinSep (sep : Str) : List Str → Str
  | [] => []
  | [t] => t
  | t :: u :: rest => t ++ sep ++ joinSep sep (u :: rest)

/-- Python w.startswith("#"). -/
def startsHash : Str → Bool
  | '#' :: _ => true
  | _ => false

/-- Index of the first occurrence of sep in s (None when sep, taken
nonempty, does not occur); models Python str.find left-to-right search. -/
def firstOcc (sep : Str) : Str → Option Nat
  | [] => if sep.isEmpty then some 0 else none
  | c :: rest =>
    if sep.isPrefixOf (c :: rest) then some 0
    else (firstOcc sep rest).map (· + 1)

/-- Index of the last occurrence of sep in s (None when sep, taken
nonempty, does not occur); models Python str.rfind right-to-left search. -/
def lastOcc (sep : Str) : Str → Option Nat
  | [] => if sep.isEmpty then some 0 else none
  | c :: rest =>
    match lastOcc sep rest with
    | some i => some (i + 1)
    | none => if sep.isPrefixOf (c :: rest) then some 0 else none

/-- Python `sep in s` (substring containment). -/
def hasOcc (sep s : Str) : Bool := (firstOcc sep s).isSome

/-- Fuelled worker for Python s.split(sep): cut at each left-to-right
occurrence of sep.  One unit of fuel per cut; s.length + 1 always suffices. -/
def pySplitGo (sep : Str) : Nat → Str → List Str
  | 0, s => [s]
  | Nat.succ fuel, s =>
    match firstOcc sep s with
    | none => [s]
    | some i => s.take i :: pySplitGo sep fuel (s.drop (i + sep.length))

/-- Python s.split(sep) for a nonempty separator sep. -/
def pySplit (sep s : Str) : List Str := pySplitGo sep (s.length + 1) s

/-- Result shape of parse_note: the dict with keys "note", "tags", "due_date". -/
structure ParsedNote where
  note : Str
  tags : List Str
  due : Option Str
deriving DecidableEq, Repr

/-- parse_note (app.py:22-38).  The match on lastOcc models
`if "[due:" in raw_note: note_part, due_chunk = raw_note.rsplit("[due:", 1)`
(rsplit with maxsplit 1 cuts at the last occurrence), followed by
`due = due_chunk.rstrip("]").strip()`.  Tags are the "#"-initial tokens of
note_part.strip().split(); the body rejoins the remaining tokens with
single spaces and strips the result. -/
def parse_note (raw : Str) : ParsedNote :=
  let np : Str × Option Str :=
    match lastOcc dueMarker raw with
    | some i => (raw.take i, some (stripWs (rstripC ']' (raw.drop (i + dueMarker.length)))))
    | none => (raw, none)
  let toks := splitWs (stripWs np.1)
  { note := stripWs (joinSep [' '] (toks.filter (fun w => !startsHash w)))
    tags := toks.filter (fun w => startsHash w)
    due := np.2 }

/-- The part of the raw text that parse_note tokenizes: everything before
the last occurrence of "[due:", or the whole text when the marker is
absent. -/
def beforeLastDue (raw : Str) : Str :=
  match lastOcc dueMarker raw with
  | some i => raw.take i
  | none => raw

/-- build_note_from_json (app.py:41-47): tags comma-joined when the list is
truthy (nonempty), due marker emitted when due_date is truthy (present and
nonempty), the three parts joined by single spaces and the result stripped. -/
def build_note_from_json (note : Str) (tags : List Str) (due : Option Str) : Str :=
  let tagsS : Str := if tags.isEmpty then [] else joinSep [','] tags
  let dueS : Str :=
    match due with
    | some d => if d.isEmpty then [] else dueMarker ++ d ++ [']']
    | none => []
  stripWs (note ++ [' '] ++ tagsS ++ [' '] ++ dueS)

/-- The due date import_txt_to_db (app.py:257-262) extracts from one line:
when "[due:" occurs, `line.split("[due:")[1].split("]")[0]`, i.e. the text
between the first "[due:" and the following "]" (bounded by the second
"[due:" if one comes sooner); the try/except leaves None if indexing fails. -/
def txtLineDue (line : Str) : Option Str :=
  if hasOcc dueMarker line then
    match (pySplit dueMarker line).get? 1 with
    | some seg => some ((pySplit [']'] seg).headD [])
    | none => none
  else none

/-- The (body, tags, due_date) triple the loop body of import_txt_to_db
(app.py:249-264) extracts from one line and passes to add_note_to_db:
tags are the "#"-initial tokens of the whole line; the body joins the
tokens starting with neither "#" nor "[due:" and is stripped at the call;
the due date is txtLineDue. -/
def txtLineTriple (line : Str) : ParsedNote :=
  { note := stripWs (joinSep [' ']
      ((splitWs line).filter (fun w => !startsHash w && !(dueMarker.isPrefixOf w))))
    tags := (splitWs line).filter (fun w => startsHash w)
    due := txtLineDue line }

/-- A persisted row of the notes table, as written by add_note_to_db
(the autoincrement id plays no role in the duplicate predicate and is
omitted). -/
structure NoteRec where
  user : Str
  note : Str
  tags : Option Str
  due : Option Str
deriving DecidableEq, Repr

/-- SQL `tags = ?`: plain equality, NULL on either side never matches. -/
def sqlEq : Option Str → Option Str → Bool
  | some a, some b => a = b
  | _, _ => false

/-- SQL `due_date IS ?`: SQLite NULL-safe equality, NULL matches NULL. -/
def sqlIs (a b : Option Str) : Bool := a = b

/-- The WHERE clause of the duplicate query in add_note_to_db (app.py:169):
`user = ? AND note = ? AND tags = ? AND due_date IS?`. -/
def dupMatch (u n : Str) (tagString due : Option Str) (r : NoteRec) : Bool :=
  (r.user = u : Bool) && (r.note = n : Bool) && sqlEq r.tags tagString && sqlIs r.due due

/-- add_note_to_db (app.py:150-194) acting on a table of rows:
`tag_string = ",".join(tags) if tags else None`; if a row matches the
duplicate query the function returns False and writes nothing, otherwise
it inserts (user, note, tag_string, due_date) and returns True. -/
def add_note_to_db (db : List NoteRec) (u n : Str) (tags : List Str) (due : Option Str) :
    Bool × List NoteRec :=
  let tagString : Option Str := if tags.isEmpty then none else some (joinSep [','] tags)
  if (db.any (dupMatch u n tagString due)) then (false, db)
  else (true, db ++ [⟨u, n, tagString, due⟩])

/-- The tags column value add_note_to_db persists (app.py:164):
`",".join(tags) if tags else None`. -/
def storedTags (tags : List Str) : Option Str :=
  if tags.isEmpty then none else some (joinSep [','] tags)

/-- The tag list export_notes_to_json reconstructs from the stored column
(app.py:497): `tags.split(",") if tags else []` (NULL and "" are falsy). -/
def exportTags : Option Str → List Str
  | none => []
  | some s => if s.isEmpty then [] else pySplit [','] s

/-- A calendar date as produced by datetime.strptime(...).date(). -/
structure PyDate where
  year : Nat
  month : Nat
  day : Nat
deriving DecidableEq, Repr

/-- Gregorian leap-year rule (Python calendar). -/
def isLeap (y : Nat) : Bool := y % 4 = 0 && (y % 100 != 0 || y % 400 = 0)

/-- Days in a month of a given year (Python calendar). -/
def daysInMonth (y m : Nat) : Nat :=
  if m = 2 then (if isLeap y then 29 else 28)
  else if m = 4 || m = 6 || m = 9 || m = 11 then 30
  else 31

def digVal (c : Char) : Nat := c.toNat - 48

/-- CPython strptime's regex fragment for the %m directive,
`1[0-2]|0[1-9]|[1-9]` (one or two digits), applied at the head of the
input; returns the month value and the unconsumed rest.  A two-character
alternative, once matched, is never given up: the following literal "-"
could only be rescued by a one-character month, which would leave a digit
where "-" is required. -/
def matchMonth : Str → Option (Nat × Str)
  | '1' :: c :: rest =>
    if '0' ≤ c ∧ c ≤ '2' then some (10 + digVal c, rest) else some (1, c :: rest)
  | '0' :: c :: rest =>
    if '1' ≤ c ∧ c ≤ '9' then some (digVal c, rest) else none
  | c :: rest => if '1' ≤ c ∧ c ≤ '9' then some (digVal c, rest) else none
  | [] => none

/-- CPython strptime's regex fragment for the %d directive,
`3[01]|[12]\d|0[1-9]|[1-9]`, applied at the head of the input; nothing
follows %d in the format, so the first matching alternative is kept and
any unconsumed text is rejected afterwards by the caller. -/
def matchDay : Str → Option (Nat × Str)
  | '3' :: c :: rest =>
    if c = '0' ∨ c = '1' then some (30 + digVal c, rest) else some (3, c :: rest)
  | c1 :: c2 :: rest =>
    if (c1 = '1' ∨ c1 = '2') ∧ c2.isDigit then some (10 * digVal c1 + digVal c2, rest)
    else if c1 = '0' then (if '1' ≤ c2 ∧ c2 ≤ '9' then some (digVal c2, rest) else none)
    else if '1' ≤ c1 ∧ c1 ≤ '9' then some (digVal c1, c2 :: rest)
    else none
  | [c] => if '1' ≤ c ∧ c ≤ '9' then some (digVal c, []) else none
  | [] => none

/-- datetime.strptime(s, "%Y-%m-%d").date() (app.py:371): %Y is exactly
four digits (modelled as ASCII), each "-" is literal, %m and %d are as
above, the whole string must be consumed, and the datetime constructor
rejects year 0 and a day beyond the month's length.  None models the
ValueError the caller catches. -/
def strptimeYmd (s : Str) : Option PyDate :=
  match s with
  | y1 :: y2 :: y3 :: y4 :: '-' :: rest =>
    if y1.isDigit ∧ y2.isDigit ∧ y3.isDigit ∧ y4.isDigit then
      match matchMonth rest with
      | some (m, rest2) =>
        match rest2 with
        | '-' :: rest3 =>
          match matchDay rest3 with
          | some (d, rest4) =>
            if rest4.isEmpty then
              let y := 1000 * digVal y1 + 100 * digVal y2 + 10 * digVal y3 + digVal y4
              if 1 ≤ y ∧ 1 ≤ d ∧ d ≤ daysInMonth y m then some ⟨y, m, d⟩ else none
            else none
          | none => none
        | _ => none
      | none => none
    else none
  | _ => none

/-- Python date ordering: lexicographic on (year, month, day). -/
def dateLt (a b : PyDate) : Bool :=
  a.year < b.year ∨ (a.year = b.year ∧ (a.month < b.month ∨ (a.month = b.month ∧ a.day < b.day)))

/-- Python date ordering, non-strict. -/
def dateLe (a b : PyDate) : Bool := dateLt a b || a = b

/-- The next calendar day (Gregorian rollover). -/
def nextDay (dt : PyDate) : PyDate :=
  if dt.day < daysInMonth dt.year dt.month then ⟨dt.year, dt.month, dt.day + 1⟩
  else if dt.month < 12 then ⟨dt.year, dt.month + 1, 1⟩
  else ⟨dt.year + 1, 1, 1⟩

/-- date + timedelta(days=n): n calendar-day steps. -/
def addDays : Nat → PyDate → PyDate
  | 0, dt => dt
  | Nat.succ n, dt => nextDay (addDays n dt)

/-- A row of the query feeding view_due_notes: (id, note, tags, due_date). -/
structure DBNote where
  id : Nat
  note : Str
  tags : Option Str
  due : Option Str
deriving DecidableEq, Repr

/-- The three classification modes of view_due_notes. -/
inductive DueMode
  | today
  | overdue
  | week
deriving DecidableEq, Repr

/-- The per-row predicate of the loop in view_due_notes (app.py:366-379):
rows with a NULL or empty due_date are skipped (`if not due: continue`),
a failing strptime is skipped via the caught ValueError, and otherwise
the mode decides: equality for "today", strictly earlier for "overdue",
and today <= date <= today + 7 days for "week". -/
def dueMatches (today : PyDate) (mode : DueMode) (r : DBNote) : Bool :=
  match r.due with
  | none => false
  | some d =>
    if d.isEmpty then false
    else
      match strptimeYmd d with
      | none => false
      | some dd =>
        match mode with
        | .today => dd = today
        | .overdue => dateLt dd today
        | .week => dateLe today dd && dateLe dd (addDays 7 today)

/-- The filtering core of view_due_notes (app.py:346-379): the rows of the
user's table that satisfy the mode's predicate for the reference date,
in table order (the loop appends matches to `filtered` in order). -/
def view_due_notes (rows : List DBNote) (today : PyDate) (mode : DueMode) : List DBNote :=
  rows.filter (dueMatches today mode)

example : parse_note ("Buy milk #grocery #urgent [due:2025-07-25]".toList) =
    { note := "Buy milk".toList
      tags := ["#grocery".toList, "#urgent".toList]
      due := some ("2025-07-25".toList) } := by decide

example : pySplit (",".toList) ("a,b,,c".toList) =
    ["a".toList, "b".toList, "".toList, "c".toList] := by decide

/-! Helper lemmas about the string model. -/

theorem isPre_iff {a b : Str} : a.isPrefixOf b = true ↔ ∃ t, a ++ t = b := by
  rw [ List.isPrefixOf_iff_prefix]
  exact Iff.rfl

theorem isPre_nil {sep : Str} (h : sep ≠ []) : sep.isPrefixOf ([] : Str) = false := by
  cases sep with
  | nil => exact absurd rfl h
  | cons c t => rfl

theorem isPre_append_right {a b t : Str} (h : a.isPrefixOf b = true) :
    a.isPrefixOf (b ++ t) = true := by
  rcases isPre_iff.mp h with ⟨u, hu⟩
  exact isPre_iff.mpr ⟨u ++ t, by rw [← List.append_assoc, hu]⟩

theorem fo_some_isPre {sep : Str} :
    ∀ {s : Str} {i : Nat}, firstOcc sep s = some i → sep.isPrefixOf (s.drop i) = true := by
  intro s
  induction s with
  | nil =>
    intro i h
    simp only [firstOcc] at h
    split at h
    · rename_i he
      cases h
      simp_all [List.isEmpty_iff, List.isPrefixOf]
    · cases h
  | cons c rest ih =>
    intro i h
    simp only [firstOcc] at h
    split at h
    · rename_i hp
      cases h
      exact hp
    · rcases Option.map_eq_some'.mp h with ⟨j, hj, rfl⟩
      rw [List.drop_succ_cons]
      exact ih hj

theorem fo_some_min {sep : Str} :
    ∀ {s : Str} {i : Nat}, firstOcc sep s = some i →
      ∀ j, j < i → sep.isPrefixOf (s.drop j) = false := by
  intro s
  induction s with
  | nil =>
    intro i h j hj
    simp only [firstOcc] at h
    split at h
    · cases h; omega
    · cases h
  | cons c rest ih =>
    intro i h j hj
    simp only [firstOcc] at h
    split at h
    · cases h; omega
    · rename_i hp
      rcases Option.map_eq_some'.mp h with ⟨k, hk, rfl⟩
      cases j with
      | zero =>
        rw [List.drop_zero]
        exact Bool.eq_false_iff.mpr hp
      | succ j =>
        rw [List.drop_succ_cons]
        exact ih hk j (by omega)

theorem fo_none {sep : Str} (hsep : sep ≠ []) :
    ∀ {s : Str}, firstOcc sep s = none → ∀ j, sep.isPrefixOf (s.drop j) = false := by
  intro s
  induction s with
  | nil =>
    intro _ j
    rw [List.drop_nil]
    exact isPre_nil hsep
  | cons c rest ih =>
    intro h j
    simp only [firstOcc] at h
    split at h
    · cases h
    · rename_i hp
      have hrest : firstOcc sep rest = none := by
        cases hf : firstOcc sep rest with
        | none => rfl
        | some k => rw [hf] at h; cases h
      cases j with
      | zero =>
        rw [List.drop_zero]
        exact Bool.eq_false_iff.mpr hp
      | succ j =>
        rw [List.drop_succ_cons]
        exact ih hrest j

theorem fo_isSome_of {sep s : Str} {j : Nat} (hsep : sep ≠ [])
    (h : sep.isPrefixOf (s.drop j) = true) : (firstOcc sep s).isSome = true := by
  cases hf : firstOcc sep s with
  | none => rw [fo_none hsep hf j] at h; cases h
  | some i => rfl

theorem fo_some_le {sep s : Str} {i : Nat} (hsep : sep ≠ [])
    (h : firstOcc sep s = some i) : i + sep.length ≤ s.length := by
  rcases isPre_iff.mp (fo_some_isPre h) with ⟨t, ht⟩
  have hlen : sep.length + t.length = s.length - i := by
    rw [← List.length_append, ht, List.length_drop]
  have hpos : 1 ≤ sep.length := by
    cases sep with
    | nil => exact absurd rfl hsep
    | cons a b => simp
  omega

theorem lo_some_isPre {sep : Str} :
    ∀ {s : Str} {i : Nat}, lastOcc sep s = some i → sep.isPrefixOf (s.drop i) = true := by
  intro s
  induction s with
  | nil =>
    intro i h
    simp only [lastOcc] at h
    split at h
    · rename_i he
      cases h
      simp_all [List.isEmpty_iff, List.isPrefixOf]
    · cases h
  | cons c rest ih =>
    intro i h
    simp only [lastOcc] at h
    split at h
    · rename_i k hk
      cases h
      rw [List.drop_succ_cons]
      exact ih hk
    · split at h
      · rename_i hp
        cases h
        rw [List.drop_zero]
        exact hp
      · cases h

theorem lo_none {sep : Str} (hsep : sep ≠ []) :
    ∀ {s : Str}, lastOcc sep s = none → ∀ j, sep.isPrefixOf (s.drop j) = false := by
  intro s
  induction s with
  | nil =>
    intro _ j
    rw [List.drop_nil]
    exact isPre_nil hsep
  | cons c rest ih =>
    intro h j
    simp only [lastOcc] at h
    split at h
    · cases h
    · rename_i hrest
      split at h
      · cases h
      · rename_i hp
        cases j with
        | zero =>
          rw [List.drop_zero]
          exact Bool.eq_false_iff.mpr hp
        | succ j =>
          rw [List.drop_succ_cons]
          exact ih hrest j

theorem lo_some_max {sep : Str} (hsep : sep ≠ []) :
    ∀ {s : Str} {i : Nat}, lastOcc sep s = some i →
      ∀ j, sep.isPrefixOf (s.drop j) = true → j ≤ i := by
  intro s
  induction s with
  | nil =>
    intro i h j hj
    rw [List.drop_nil, isPre_nil hsep] at hj
    cases hj
  | cons c rest ih =>
    intro i h j hj
    simp only [lastOcc] at h
    split at h
    · rename_i k hk
      cases h
      cases j with
      | zero => omega
      | succ j =>
        rw [List.drop_succ_cons] at hj
        have := ih hk j hj
        omega
    · rename_i hrest
      split at h
      · cases h
        cases j with
        | zero => omega
        | succ j =>
          rw [List.drop_succ_cons] at hj
          rw [lo_none hsep hrest j] at hj
          cases hj
      · cases h

theorem lo_isSome_of {sep s : Str} {j : Nat} (hsep : sep ≠ [])
    (h : sep.isPrefixOf (s.drop j) = true) : (lastOcc sep s).isSome = true := by
  cases hl : lastOcc sep s with
  | none => rw [lo_none hsep hl j] at h; cases h
  | some i => rfl

theorem lo_some_le {sep s : Str} {i : Nat} (hsep : sep ≠ [])
    (h : lastOcc sep s = some i) : i + sep.length ≤ s.length := by
  rcases isPre_iff.mp (lo_some_isPre h) with ⟨t, ht⟩
  have hlen : sep.length + t.length = s.length - i := by
    rw [← List.length_append, ht, List.length_drop]
  have hpos : 1 ≤ sep.length := by
    cases sep with
    | nil => exact absurd rfl hsep
    | cons a b => simp
  omega

theorem psGo_succ (sep : Str) (fuel : Nat) (s : Str) :
    pySplitGo sep (fuel + 1) s =
      match firstOcc sep s with
      | none => [s]
      | some i => s.take i :: pySplitGo sep fuel (s.drop (i + sep.length)) := rfl

theorem psGo_fuel {sep : Str} (hsep : sep ≠ []) :
    ∀ (f : Nat), ∀ {s : Str}, s.length < f →
      pySplitGo sep f s = pySplitGo sep (s.length + 1) s := by
  intro f
  induction f using Nat.strong_induction_on with
  | _ f ih =>
    intro s hs
    cases f with
    | zero => omega
    | succ f =>
      rw [psGo_succ, psGo_succ]
      cases hf : firstOcc sep s with
      | none => rfl
      | some i =>
        have hle := fo_some_le hsep hf
        have hpos : 1 ≤ sep.length := by
          cases sep with
          | nil => exact absurd rfl hsep
          | cons a b => simp
        have hrlen : (s.drop (i + sep.length)).length < s.length := by
          rw [List.length_drop]
          omega
        show s.take i :: pySplitGo sep f (s.drop (i + sep.length)) =
          s.take i :: pySplitGo sep s.length (s.drop (i + sep.length))
        rw [ih f (by omega) (by omega), ih s.length (by omega) (by omega)]

theorem pySplit_none {sep s : Str} (h : firstOcc sep s = none) : pySplit sep s = [s] := by
  simp [pySplit, pySplitGo, h]

theorem pySplit_some {sep s : Str} {i : Nat} (hsep : sep ≠ [])
    (h : firstOcc sep s = some i) :
    pySplit sep s = s.take i :: pySplit sep (s.drop (i + sep.length)) := by
  have hle := fo_some_le hsep h
  have hpos : 1 ≤ sep.length := by
    cases sep with
    | nil => exact absurd rfl hsep
    | cons a b => simp
  have hrlen : (s.drop (i + sep.length)).length < s.length := by
    rw [List.length_drop]
    omega
  show pySplitGo sep (s.length + 1) s = _
  rw [psGo_succ, h]
  show s.take i :: pySplitGo sep s.length (s.drop (i + sep.length)) = _
  rw [psGo_fuel hsep s.length (by omega)]
  rfl

theorem fo_single_none {c : Char} {t : Str} (h : ∀ x ∈ t, x ≠ c) :
    firstOcc [c] t = none := by
  induction t with
  | nil => rfl
  | cons d rest ih =>
    simp only [firstOcc]
    have hdc : ([c].isPrefixOf (d :: rest)) = false := by
      simp [List.isPrefixOf]
      intro hcd
      exact absurd hcd.symm (h d (by simp))
    rw [hdc]
    simp [ih (fun x hx => h x (by simp [hx]))]

theorem fo_single_append {c : Char} {t z : Str} (h : ∀ x ∈ t, x ≠ c) :
    firstOcc [c] (t ++ c :: z) = some t.length := by
  induction t with
  | nil =>
    simp only [List.nil_append, firstOcc]
    rw [if_pos]
    · rfl
    · simp [List.isPrefixOf]
  | cons d rest ih =>
    simp only [List.cons_append, firstOcc, List.append_eq]
    have hdc : ([c].isPrefixOf (d :: (rest ++ c :: z))) = false := by
      simp [List.isPrefixOf]
      intro hcd
      exact absurd hcd.symm (h d (by simp))
    rw [hdc]
    simp [ih (fun x hx => h x (by simp [hx]))]

theorem joinSep_cons_cons (sep : Str) (t u : Str) (rest : List Str) :
    joinSep sep (t :: u :: rest) = t ++ sep ++ joinSep sep (u :: rest) := rfl

theorem pySplit_join_single {c : Char} :
    ∀ {ts : List Str}, ts ≠ [] → (∀ t ∈ ts, ∀ x ∈ t, x ≠ c) →
      pySplit [c] (joinSep [c] ts) = ts := by
  intro ts
  induction ts with
  | nil => intro h; exact absurd rfl h
  | cons t rest ih =>
    intro _ hc
    cases rest with
    | nil =>
      show pySplit [c] t = [t]
      exact pySplit_none (fo_single_none (hc t (by simp)))
    | cons u rest2 =>
      rw [joinSep_cons_cons]
      have hjoin : t ++ [c] ++ joinSep [c] (u :: rest2) = t ++ c :: joinSep [c] (u :: rest2) := by
        simp
      rw [hjoin]
      rw [pySplit_some (by simp) (fo_single_append (hc t (by simp)))]
      simp only [List.length_singleton]
      have htake : (t ++ c :: joinSep [c] (u :: rest2)).take t.length = t := by
        exact List.take_left t (c :: joinSep [c] (u :: rest2))
      have hdrop : (t ++ c :: joinSep [c] (u :: rest2)).drop (t.length + 1) = joinSep [c] (u :: rest2) := by
        exact List.drop_append 1
      rw [htake, hdrop]
      rw [ih (by simp) (fun x hx => hc x (by simp [hx]))]

theorem sw_aux_ws_all {s : Str} (h : ∀ x ∈ s, x.isWhitespace = true) :
    ∀ acc, splitWsAux s acc = if acc.isEmpty then [] else [acc.reverse] := by
  induction s with
  | nil => intro acc; rfl
  | cons c rest ih =>
    intro acc
    have hc : c.isWhitespace = true := h c (by simp)
    simp only [splitWsAux, hc, if_true]
    by_cases hacc : acc.isEmpty
    · rw [if_pos hacc, if_pos hacc, ih (fun x hx => h x (by simp [hx])) []]
      rfl
    · rw [if_neg hacc, if_neg hacc, ih (fun x hx => h x (by simp [hx])) []]
      rfl

theorem sw_append_sep {w : Char} (hw : w.isWhitespace = true) :
    ∀ (a : Str) (b : Str) (acc : Str),
      splitWsAux (a ++ w :: b) acc = splitWsAux a acc ++ splitWs b := by
  intro a
  induction a with
  | nil =>
    intro b acc
    simp only [List.nil_append, splitWsAux, hw, if_true]
    by_cases hacc : acc.isEmpty
    · rw [if_pos hacc, if_pos hacc]
      rfl
    · rw [if_neg hacc, if_neg hacc]
      rfl
  | cons c a ih =>
    intro b acc
    simp only [List.cons_append, splitWsAux, List.append_eq]
    by_cases hc : c.isWhitespace
    · rw [if_pos hc, if_pos hc]
      by_cases hacc : acc.isEmpty
      · rw [if_pos hacc, if_pos hacc, ih b []]
      · rw [if_neg hacc, if_neg hacc, ih b []]
        rfl
    · rw [if_neg hc, if_neg hc, ih b (c :: acc)]

theorem sw_trailing {r : Str} (h : ∀ x ∈ r, x.isWhitespace = true) :
    ∀ (t : Str) (acc : Str), splitWsAux (t ++ r) acc = splitWsAux t acc := by
  intro t
  induction t with
  | nil =>
    intro acc
    rw [List.nil_append, sw_aux_ws_all h acc]
    rfl
  | cons c t ih =>
    intro acc
    simp only [List.cons_append, splitWsAux, List.append_eq]
    by_cases hc : c.isWhitespace
    · rw [if_pos hc, if_pos hc]
      by_cases hacc : acc.isEmpty
      · rw [if_pos hacc, if_pos hacc, ih []]
      · rw [if_neg hacc, if_neg hacc, ih []]
    · rw [if_neg hc, if_neg hc, ih (c :: acc)]

theorem sw_nows {t : Str} (h : ∀ x ∈ t, x.isWhitespace = false) :
    ∀ acc, splitWsAux t acc =
      if (t.reverse ++ acc).isEmpty then [] else [(t.reverse ++ acc).reverse] := by
  induction t with
  | nil => intro acc; rfl
  | cons c t ih =>
    intro acc
    have hc : c.isWhitespace = false := h c (by simp)
    simp only [splitWsAux, hc, Bool.false_eq_true, if_false]
    rw [ih (fun x hx => h x (by simp [hx])) (c :: acc)]
    have harr : t.reverse ++ c :: acc = (c :: t).reverse ++ acc := by
      simp
    rw [harr]

theorem sw_single {t : Str} (hne : t ≠ []) (h : ∀ x ∈ t, x.isWhitespace = false) :
    splitWs t = [t] := by
  show splitWsAux t [] = [t]
  rw [sw_nows h []]
  rw [List.append_nil]
  rw [if_neg (by simp [hne])]
  rw [List.reverse_reverse]

theorem sw_leading : ∀ {s : Str}, splitWs (s.dropWhile Char.isWhitespace) = splitWs s := by
  intro s
  induction s with
  | nil => rfl
  | cons c rest ih =>
    by_cases hc : c.isWhitespace
    · rw [List.dropWhile_cons, if_pos hc]
      rw [ih]
      show splitWs rest = splitWsAux (c :: rest) []
      simp only [splitWsAux, hc, if_true, List.isEmpty_nil, if_pos]
      rfl
    · rw [List.dropWhile_cons, if_neg hc]

theorem rev_decomp (p : Char → Bool) (s : Str) :
    s = rdropP p s ++ (s.reverse.takeWhile p).reverse ∧
      (∀ x ∈ (s.reverse.takeWhile p).reverse, p x = true) := by
  constructor
  · rw [rdropP]
    rw [← List.reverse_append]
    rw [List.takeWhile_append_dropWhile]
    rw [List.reverse_reverse]
  · intro x hx
    rw [List.mem_reverse] at hx
    exact List.mem_takeWhile_imp hx

theorem sw_strip {s : Str} : splitWs (stripWs s) = splitWs s := by
  rw [stripWs]
  have h1 := rev_decomp Char.isWhitespace (s.dropWhile Char.isWhitespace)
  have h2 : splitWs (s.dropWhile Char.isWhitespace) =
      splitWs (rdropP Char.isWhitespace (s.dropWhile Char.isWhitespace)) := by
    conv_lhs => rw [h1.1]
    exact sw_trailing h1.2 _ []
  rw [← h2, sw_leading]

theorem sw_tokens_aux {s : Str} :
    ∀ {acc : Str}, (∀ x ∈ acc, x.isWhitespace = false) →
      ∀ t ∈ splitWsAux s acc, t ≠ [] ∧ ∀ x ∈ t, x.isWhitespace = false := by
  induction s with
  | nil =>
    intro acc hacc t ht
    simp only [splitWsAux] at ht
    split at ht
    · cases ht
    · rename_i hne
      rw [List.mem_singleton] at ht
      subst ht
      refine ⟨by simpa [List.isEmpty_iff] using hne, ?_⟩
      intro x hx
      exact hacc x (List.mem_reverse.mp hx)
  | cons c rest ih =>
    intro acc hacc t ht
    simp only [splitWsAux] at ht
    split at ht
    · rename_i hc
      split at ht
      · exact ih (by simp) t ht
      · rename_i hne
        rcases List.mem_cons.mp ht with hh | hh
        · subst hh
          refine ⟨by simpa [List.isEmpty_iff] using hne, ?_⟩
          intro x hx
          exact hacc x (List.mem_reverse.mp hx)
        · exact ih (by simp) t hh
    · rename_i hc
      refine ih ?_ t ht
      intro x hx
      rcases List.mem_cons.mp hx with hh | hh
      · subst hh
        exact Bool.eq_false_iff.mpr hc
      · exact hacc x hh

theorem sw_tokens {s : Str} :
    ∀ t ∈ splitWs s, t ≠ [] ∧ ∀ x ∈ t, x.isWhitespace = false :=
  sw_tokens_aux (by simp)

theorem sw_infix_aux {s : Str} :
    ∀ {acc : Str}, ∀ t ∈ splitWsAux s acc, ∃ l r, l ++ t ++ r = acc.reverse ++ s := by
  induction s with
  | nil =>
    intro acc t ht
    simp only [splitWsAux] at ht
    split at ht
    · cases ht
    · rw [List.mem_singleton] at ht
      subst ht
      exact ⟨[], [], by simp⟩
  | cons c rest ih =>
    intro acc t ht
    simp only [splitWsAux] at ht
    split at ht
    · split at ht
      · rename_i hacc
        rcases ih t ht with ⟨l, r, hlr⟩
        have hacc2 : acc = [] := List.isEmpty_iff.mp hacc
        subst hacc2
        exact ⟨c :: l, r, by simpa using hlr⟩
      · rcases List.mem_cons.mp ht with hh | hh
        · subst hh
          exact ⟨[], c :: rest, by simp⟩
        · rcases ih t hh with ⟨l, r, hlr⟩
          simp only [List.reverse_nil, List.nil_append] at hlr
          exact ⟨acc.reverse ++ c :: l, r, by simp [hlr, List.append_assoc]⟩
    · rcases ih t ht with ⟨l, r, hlr⟩
      simp only [List.reverse_cons] at hlr
      exact ⟨l, r, by simpa [List.append_assoc] using hlr⟩

theorem sw_infix {s : Str} : ∀ t ∈ splitWs s, ∃ l r, l ++ t ++ r = s := by
  intro t ht
  rcases sw_infix_aux t ht with ⟨l, r, hlr⟩
  exact ⟨l, r, by simpa using hlr⟩

theorem sw_join {ts : List Str}
    (h : ∀ t ∈ ts, t ≠ [] ∧ ∀ x ∈ t, x.isWhitespace = false) :
    splitWs (joinSep [' '] ts) = ts := by
  induction ts with
  | nil => rfl
  | cons t rest ih =>
    cases rest with
    | nil => exact sw_single (h t (by simp)).1 (h t (by simp)).2
    | cons u rest2 =>
      rw [joinSep_cons_cons]
      have hjoin : t ++ [' '] ++ joinSep [' '] (u :: rest2) =
          t ++ ' ' :: joinSep [' '] (u :: rest2) := by simp
      rw [hjoin]
      show splitWsAux (t ++ ' ' :: joinSep [' '] (u :: rest2)) [] = t :: u :: rest2
      rw [sw_append_sep (by decide) t (joinSep [' '] (u :: rest2)) []]
      rw [ih (fun x hx => h x (by simp [hx]))]
      have : splitWsAux t [] = [t] := sw_single (h t (by simp)).1 (h t (by simp)).2
      rw [this]
      rfl

theorem dropWhile_append_all {p : Char → Bool} {a : Str} (h : ∀ x ∈ a, p x = true) :
    ∀ b, List.dropWhile p (a ++ b) = List.dropWhile p b := by
  induction a with
  | nil => intro b; rfl
  | cons c a ih =>
    intro b
    rw [List.cons_append, List.dropWhile_cons, if_pos (h c (by simp))]
    exact ih (fun x hx => h x (by simp [hx])) b

theorem dropWhile_head_neg {p : Char → Bool} {s : Str} {c : Char}
    (hh : s.head? = some c) (hc : p c = false) : List.dropWhile p s = s := by
  cases s with
  | nil => cases hh
  | cons d rest =>
    rw [List.head?_cons, Option.some_inj] at hh
    subst hh
    rw [List.dropWhile_cons, if_neg (by simp [hc])]

theorem strip_eq_self {s : Str}
    (hh : ∀ c, s.head? = some c → c.isWhitespace = false)
    (hl : ∀ c, s.getLast? = some c → c.isWhitespace = false) : stripWs s = s := by
  rw [stripWs]
  have h1 : s.dropWhile Char.isWhitespace = s := by
    cases hs : s.head? with
    | none =>
      have : s = [] := by
        cases s with
        | nil => rfl
        | cons a b => cases hs
      simp [this]
    | some c => exact dropWhile_head_neg hs (hh c hs)
  rw [h1, rdropP]
  have h2 : s.reverse.dropWhile Char.isWhitespace = s.reverse := by
    cases hs : s.reverse.head? with
    | none =>
      have : s.reverse = [] := by
        cases hr : s.reverse with
        | nil => rfl
        | cons a b => rw [hr] at hs; cases hs
      simp [this]
    | some c =>
      refine dropWhile_head_neg hs (hl c ?_)
      rw [← List.head?_reverse]
      exact hs
  rw [h2, List.reverse_reverse]

theorem strip_nows {s : Str} (h : ∀ x ∈ s, x.isWhitespace = false) : stripWs s = s :=
  strip_eq_self
    (fun c hc => h c (by
      cases s with
      | nil => cases hc
      | cons d rest =>
        rw [List.head?_cons, Option.some_inj] at hc
        simp [← hc]))
    (fun c hc => h c (List.mem_of_mem_getLast? hc))

theorem strip_all_ws {s : Str} (h : ∀ x ∈ s, x.isWhitespace = true) : stripWs s = [] := by
  rw [stripWs]
  have h1 : s.dropWhile Char.isWhitespace = [] := List.dropWhile_eq_nil_iff.mpr h
  rw [h1]
  rfl

theorem rstrip_nomem {c : Char} {v : Str} (h : ∀ x ∈ v, x ≠ c) : rstripC c v = v := by
  rw [rstripC, rdropP]
  have h2 : v.reverse.dropWhile (fun x => x = c) = v.reverse := by
    cases hs : v.reverse.head? with
    | none =>
      have : v.reverse = [] := by
        cases hr : v.reverse with
        | nil => rfl
        | cons a b => rw [hr] at hs; cases hs
      simp [this]
    | some d =>
      refine dropWhile_head_neg hs ?_
      have hd : d ∈ v :=
        List.mem_of_mem_getLast? (by rw [← List.head?_reverse]; exact hs)
      simp [h d hd]
  rw [h2, List.reverse_reverse]

theorem rstrip_append_one {c : Char} {v : Str} (h : ∀ x ∈ v, x ≠ c) :
    rstripC c (v ++ [c]) = v := by
  rw [rstripC, rdropP]
  rw [List.reverse_append]
  have hstep : List.dropWhile (fun x => x = c) ([c].reverse ++ v.reverse) =
      List.dropWhile (fun x => x = c) v.reverse := by
    refine dropWhile_append_all ?_ v.reverse
    intro x hx
    simp at hx
    simp [hx]
  rw [hstep]
  have h2 : v.reverse.dropWhile (fun x => x = c) = v.reverse := by
    have h0 := rstrip_nomem h
    rw [rstripC, rdropP] at h0
    have h3 := congrArg List.reverse h0
    rw [List.reverse_reverse] at h3
    exact h3
  rw [h2, List.reverse_reverse]

theorem rstrip_ws_rb {w z : Str} (hw : ∀ x ∈ w, x.isWhitespace = true)
    (hz : ∀ x ∈ z, x = ']') : rstripC ']' (w ++ z) = w ∨ rstripC ']' (w ++ z) = [] := by
  rw [rstripC, rdropP, List.reverse_append]
  have hstep : List.dropWhile (fun x => x = ']') (z.reverse ++ w.reverse) =
      List.dropWhile (fun x => x = ']') w.reverse := by
    refine dropWhile_append_all ?_ w.reverse
    intro x hx
    simp [hz x (List.mem_reverse.mp hx)]
  rw [hstep]
  cases hr : w.reverse.head? with
  | none =>
    right
    have : w.reverse = [] := by
      cases hrr : w.reverse with
      | nil => rfl
      | cons a b => rw [hrr] at hr; cases hr
    simp [this]
  | some d =>
    left
    have hd : d ∈ w := by
      have := List.mem_of_mem_getLast? (l := w) (by rw [← List.head?_reverse]; exact hr)
      exact this
    have hne : d = ']' → False := by
      intro he
      have := hw d hd
      rw [he] at this
      cases this
    rw [dropWhile_head_neg hr (by
      simp only [decide_eq_false_iff_not]
      exact hne), List.reverse_reverse]

theorem join_ne_nil {sep : Str} {ts : List Str} (h : ∀ t ∈ ts, t ≠ []) (hne : ts ≠ []) :
    joinSep sep ts ≠ [] := by
  cases ts with
  | nil => exact absurd rfl hne
  | cons t rest =>
    cases rest with
    | nil => exact h t (by simp)
    | cons u rest2 =>
      rw [joinSep_cons_cons]
      intro hcontra
      rcases List.append_eq_nil.mp (List.append_eq_nil.mp hcontra).1 with ⟨ht, _⟩
      exact h t (by simp) ht

theorem join_getLast_mem {ts : List Str} (h : ∀ t ∈ ts, t ≠ []) :
    ∀ c, (joinSep [' '] ts).getLast? = some c → ∃ u ∈ ts, c ∈ u := by
  induction ts with
  | nil => intro c hc; cases hc
  | cons t rest ih =>
    intro c hc
    cases rest with
    | nil =>
      exact ⟨t, by simp, List.mem_of_mem_getLast? hc⟩
    | cons u rest2 =>
      rw [joinSep_cons_cons] at hc
      have hJ : joinSep [' '] (u :: rest2) ≠ [] :=
        join_ne_nil (fun x hx => h x (by simp [hx])) (by simp)
      rw [List.append_assoc, List.getLast?_append] at hc
      have hJlast : ([' '] ++ joinSep [' '] (u :: rest2)).getLast? =
          (joinSep [' '] (u :: rest2)).getLast? := by
        rw [List.getLast?_append]
        cases hg : (joinSep [' '] (u :: rest2)).getLast? with
        | none => exact absurd (List.getLast?_eq_none_iff.mp hg) hJ
        | some d => rfl
      rw [hJlast] at hc
      cases hg : (joinSep [' '] (u :: rest2)).getLast? with
      | none => exact absurd (List.getLast?_eq_none_iff.mp hg) hJ
      | some d =>
        rw [hg] at hc
        simp only [Option.or_some, Option.some_inj] at hc
        subst hc
        rcases ih (fun x hx => h x (by simp [hx])) d hg with ⟨u2, hu2, hdu2⟩
        exact ⟨u2, by simp [hu2], hdu2⟩

theorem strip_join {ts : List Str}
    (h : ∀ t ∈ ts, t ≠ [] ∧ ∀ x ∈ t, x.isWhitespace = false) :
    stripWs (joinSep [' '] ts) = joinSep [' '] ts := by
  refine strip_eq_self ?_ ?_
  · intro c hc
    cases ts with
    | nil => cases hc
    | cons t rest =>
      have hth : (joinSep [' '] (t :: rest)).head? = t.head? := by
        cases rest with
        | nil => rfl
        | cons u rest2 =>
          rw [joinSep_cons_cons, List.append_assoc]
          exact List.head?_append_of_ne_nil t (h t (by simp)).1
      rw [hth] at hc
      exact (h t (by simp)).2 c (List.mem_of_mem_head? hc)
  · intro c hc
    rcases join_getLast_mem (fun t ht => (h t ht).1) c hc with ⟨u, hu, hcu⟩
    exact (h u hu).2 c hcu

theorem parse_note_eq (raw : Str) :
    parse_note raw =
      { note := stripWs (joinSep [' ']
          ((splitWs (stripWs (beforeLastDue raw))).filter (fun w => !startsHash w)))
        tags := (splitWs (stripWs (beforeLastDue raw))).filter (fun w => startsHash w)
        due :=
          match lastOcc dueMarker raw with
          | some i => some (stripWs (rstripC ']' (raw.drop (i + dueMarker.length))))
          | none => none } := by
  cases h : lastOcc dueMarker raw with
  | some i => simp [parse_note, beforeLastDue, h]
  | none => simp [parse_note, beforeLastDue, h]

theorem dueMarker_ne_nil : dueMarker ≠ [] := by decide

theorem hasOcc_iff_lastOcc {sep s : Str} (hsep : sep ≠ []) :
    hasOcc sep s = true ↔ (lastOcc sep s).isSome = true := by
  constructor
  · intro h
    rw [hasOcc] at h
    cases hf : firstOcc sep s with
    | none => rw [hf] at h; cases h
    | some i => exact lo_isSome_of hsep (fo_some_isPre hf)
  · intro h
    cases hl : lastOcc sep s with
    | none => rw [hl] at h; cases h
    | some i => exact fo_isSome_of hsep (lo_some_isPre hl)

theorem hasOcc_false_lastOcc {sep s : Str} (hsep : sep ≠ [])
    (h : hasOcc sep s = false) : lastOcc sep s = none := by
  cases hl : lastOcc sep s with
  | none => rfl
  | some i =>
    have := (hasOcc_iff_lastOcc hsep).mpr (by rw [hl]; rfl)
    rw [this] at h
    cases h

theorem dueMatches_false_of_bad {D : PyDate} {mode : DueMode} {r : DBNote}
    (h : r.due = none ∨ r.due = some [] ∨ ∃ s, r.due = some s ∧ strptimeYmd s = none) :
    dueMatches D mode r = false := by
  rcases h with h | h | ⟨s, hs, hp⟩
  · simp [dueMatches, h]
  · simp [dueMatches, h]
  · rcases Decidable.em (s = []) with he | he
    · subst he
      simp [dueMatches, hs]
    · simp [dueMatches, hs, List.isEmpty_iff, he, hp]

theorem dueMatches_true_iff (D : PyDate) (mode : DueMode) (r : DBNote) :
    dueMatches D mode r = true ↔
      ∃ s dd, r.due = some s ∧ s ≠ [] ∧ strptimeYmd s = some dd ∧
        (match mode with
         | DueMode.today => dd = D
         | DueMode.overdue => dateLt dd D = true
         | DueMode.week => dateLe D dd = true ∧ dateLe dd (addDays 7 D) = true) := by
  cases hr : r.due with
  | none =>
    simp only [dueMatches, hr]
    constructor
    · intro h; cases h
    · rintro ⟨s, dd, hs, _⟩; cases hs
  | some s =>
    rcases Decidable.em (s = []) with he | he
    · subst he
      simp only [dueMatches, hr]
      constructor
      · intro h; simp at h
      · rintro ⟨s2, dd, hs2, hne, _⟩
        rw [Option.some_inj] at hs2
        exact absurd hs2.symm hne
    · cases hp : strptimeYmd s with
      | none =>
        simp only [dueMatches, hr, List.isEmpty_iff, hp]
        constructor
        · intro h
          rw [if_neg he] at h
          cases h
        · rintro ⟨s2, dd, hs2, _, hp2, _⟩
          rw [Option.some_inj] at hs2
          subst hs2
          rw [hp] at hp2
          cases hp2
      | some dd =>
        simp only [dueMatches, hr, List.isEmpty_iff, hp]
        rw [if_neg he]
        constructor
        · intro h
          refine ⟨s, dd, rfl, he, hp, ?_⟩
          cases mode with
          | today => simpa using h
          | overdue => exact h
          | week => simpa using h
        · rintro ⟨s2, dd2, hs2, _, hp2, hm⟩
          rw [Option.some_inj] at hs2
          subst hs2
          rw [hp] at hp2
          rw [Option.some_inj] at hp2
          subst hp2
          cases mode with
          | today => simpa using hm
          | overdue => exact hm
          | week => simpa using hm

/-- C5: for a reference date D, mode "week" selects exactly the rows whose
parsed due date dd satisfies D <= dd <= D + 7 days (both ends inclusive),
mode "today" exactly dd = D, and mode "overdue" exactly dd < D, always
restricted to rows whose due string is present, nonempty and parseable. -/
theorem c5_mode_ranges : ∀ (rows : List DBNote) (D : PyDate) (r : DBNote),
    (r ∈ view_due_notes rows D DueMode.week ↔
      r ∈ rows ∧ ∃ s dd, r.due = some s ∧ s ≠ [] ∧ strptimeYmd s = some dd ∧
        dateLe D dd = true ∧ dateLe dd (addDays 7 D) = true)
    ∧ (r ∈ view_due_notes rows D DueMode.today ↔
      r ∈ rows ∧ ∃ s dd, r.due = some s ∧ s ≠ [] ∧ strptimeYmd s = some dd ∧ dd = D)
    ∧ (r ∈ view_due_notes rows D DueMode.overdue ↔
      r ∈ rows ∧ ∃ s dd, r.due = some s ∧ s ≠ [] ∧ strptimeYmd s = some dd ∧
        dateLt dd D = true) := by
  intro rows D r
  refine ⟨?_, ?_, ?_⟩ <;>
    rw [view_due_notes, List.mem_filter, dueMatches_true_iff]

/-- C5 witness: with reference date 2025-08-01, a note dated exactly
2025-08-08 (D + 7) is selected by mode "week" and one dated 2025-08-09
(D + 8) is not. -/
theorem c5_mode_ranges_witness :
    (⟨1, [], none, some ("2025-08-08".toList)⟩ : DBNote) ∈
      view_due_notes
        [⟨1, [], none, some ("2025-08-08".toList)⟩, ⟨2, [], none, some ("2025-08-09".toList)⟩]
        ⟨2025, 8, 1⟩ DueMode.week
    ∧ (⟨2, [], none, some ("2025-08-09".toList)⟩ : DBNote) ∉
      view_due_notes
        [⟨1, [], none, some ("2025-08-08".toList)⟩, ⟨2, [], none, some ("2025-08-09".toList)⟩]
        ⟨2025, 8, 1⟩ DueMode.week := by
  constructor
  · exact ((c5_mode_ranges _ _ _).1).mpr
      ⟨by decide, "2025-08-08".toList, ⟨2025, 8, 8⟩, rfl, by decide, by decide, by decide, by decide⟩
  · decide

/-- C6: classification excludes every row whose due string is absent or
empty and every row whose due string fails the strict date parse (such as
"not-a-date"), in every mode and for every reference date; the embedding
is a total function, so the skipped rows produce no error. -/
theorem c6_bad_due_excluded :
    (∀ (rows : List DBNote) (D : PyDate) (mode : DueMode) (r : DBNote),
      (r.due = none ∨ r.due = some [] ∨ ∃ s, r.due = some s ∧ strptimeYmd s = none) →
      r ∉ view_due_notes rows D mode)
    ∧ strptimeYmd ("not-a-date".toList) = none := by
  constructor
  · intro rows D mode r h hmem
    rw [view_due_notes, List.mem_filter] at hmem
    rw [dueMatches_false_of_bad h] at hmem
    exact absurd hmem.2 (by simp)
  · decide

/-- C6 witness: a row with due string "not-a-date" is excluded from mode
"today" at reference date 2025-08-01. -/
theorem c6_bad_due_excluded_witness :
    (⟨1, [], none, some ("not-a-date".toList)⟩ : DBNote) ∉
      view_due_notes [⟨1, [], none, some ("not-a-date".toList)⟩] ⟨2025, 8, 1⟩ DueMode.today :=
  c6_bad_due_excluded.1 _ _ _ _ (Or.inr (Or.inr ⟨"not-a-date".toList, rfl, by decide⟩))

/-- C7: parse_note is total by construction (the embedding is a plain
function), and on the empty string it returns body "", tags [] and no due
date. -/
theorem c7_parse_empty : parse_note ([] : Str) = { note := [], tags := [], due := none } := by
  decide

/-- C8: for every input row list, mode and reference date, the classified
rows form an order-preserving subsequence of the input, and the result is
empty when no row matches the mode's predicate. -/
theorem c8_order_preserved : ∀ (rows : List DBNote) (D : PyDate) (mode : DueMode),
    List.Sublist (view_due_notes rows D mode) rows
    ∧ ((∀ r ∈ rows, dueMatches D mode r = false) → view_due_notes rows D mode = []) := by
  intro rows D mode
  refine ⟨List.filter_sublist rows, ?_⟩
  intro h
  rw [view_due_notes, List.filter_eq_nil_iff]
  intro a ha
  simp [h a ha]

/-- C8 witness: on a concrete one-row list with no due date, the result is
a sublist of the input and empty because nothing matches. -/
theorem c8_order_preserved_witness :
    List.Sublist
      (view_due_notes [⟨1, [], none, none⟩] ⟨2025, 8, 1⟩ DueMode.today)
      [(⟨1, [], none, none⟩ : DBNote)]
    ∧ view_due_notes [⟨1, [], none, none⟩] ⟨2025, 8, 1⟩ DueMode.today = [] :=
  ⟨(c8_order_preserved _ _ _).1, (c8_order_preserved _ _ _).2 (by decide)⟩

/-- C9 counterexample: the singleton tag list containing the empty string
has no comma in any element, yet the persisted round trip loses it: the
stored string "" is falsy on export and reconstructs as the empty list,
not as [""]. -/
theorem c9_roundtrip_counterexample :
    exportTags (storedTags [([] : Str)]) = [] ∧ ([] : List Str) ≠ [([] : Str)] :=
  ⟨by decide, by decide⟩

/-- C9 (amended): for every tag list none of whose elements contains a
comma, other than the singleton list containing the empty string, joining
with commas on insert and splitting on commas on export reconstructs the
original list in order. -/
theorem c9_roundtrip : ∀ tags : List Str,
    (∀ t ∈ tags, ∀ x ∈ t, x ≠ ',') → tags ≠ [([] : Str)] →
    exportTags (storedTags tags) = tags := by
  intro tags hnc hne
  cases tags with
  | nil => rfl
  | cons t rest =>
    rw [storedTags, if_neg (by simp)]
    have hjoin_ne : joinSep [','] (t :: rest) ≠ [] := by
      cases rest with
      | nil =>
        have ht : t ≠ [] := by
          intro he
          subst he
          exact hne rfl
        simpa using ht
      | cons u rest2 =>
        rw [joinSep_cons_cons]
        simp
    rw [exportTags]
    rw [if_neg (by simpa [List.isEmpty_iff] using hjoin_ne)]
    exact pySplit_join_single (by simp) hnc

/-- C9 witness: the documented example ["#a", "#b"] survives the round
trip exactly. -/
theorem c9_roundtrip_witness :
    exportTags (storedTags ["#a".toList, "#b".toList]) = ["#a".toList, "#b".toList] :=
  c9_roundtrip _ (by decide) (by decide)

/-- C10 counterexample: in "task [due:] ]" the text after the last
"[due:" is "] ]", made of "]" characters and whitespace only, yet
parse_note returns the nonempty due string "]" (rstrip stops at the
space), not "". -/
theorem c10_counterexample :
    ("task [due:] ]".toList : Str) = ("task ".toList) ++ dueMarker ++ ("] ]".toList)
    ∧ hasOcc dueMarker ("] ]".toList) = false
    ∧ (∀ x ∈ ("] ]".toList : Str), x = ']' ∨ x.isWhitespace = true)
    ∧ (parse_note ("task [due:] ]".toList)).due = some ("]".toList)
    ∧ some ("]".toList) ≠ some (([] : Str)) :=
  ⟨by decide, by decide, by decide, by decide, by decide⟩

theorem not_mem_view_of_empty_due {rows : List DBNote} {D : PyDate} {mode : DueMode}
    {r : DBNote} (hr : r.due = some []) : r ∉ view_due_notes rows D mode := by
  intro hmem
  rw [view_due_notes, List.mem_filter] at hmem
  rw [dueMatches_false_of_bad (Or.inr (Or.inl hr))] at hmem
  exact absurd hmem.2 (by simp)

/-- C10 (amended): when the text after the last "[due:" is whitespace
followed by "]" characters (either part possibly empty), parse_note
returns the present-but-empty due string ""; downstream, "" and an absent
due date behave alike: classification excludes the row and serialization
emits no due marker. -/
theorem c10_empty_due : ∀ (raw w z : Str) (n : Nat),
    lastOcc dueMarker raw = some n →
    raw.drop (n + dueMarker.length) = w ++ z →
    (∀ x ∈ w, x.isWhitespace = true) →
    (∀ x ∈ z, x = ']') →
    (parse_note raw).due = some []
    ∧ (∀ (rows : List DBNote) (D : PyDate) (mode : DueMode) (r : DBNote),
        r.due = some [] → r ∉ view_due_notes rows D mode)
    ∧ (∀ (note : Str) (tags : List Str),
        build_note_from_json note tags (some []) = build_note_from_json note tags none) := by
  intro raw w z n hlo hdrop hw hz
  refine ⟨?_, ?_, ?_⟩
  · rw [parse_note_eq]
    show (match lastOcc dueMarker raw with
      | some i => some (stripWs (rstripC ']' (raw.drop (i + dueMarker.length))))
      | none => none) = some []
    rw [hlo]
    rw [Option.some_inj]
    rw [hdrop]
    rcases rstrip_ws_rb hw hz with h | h
    · rw [h]
      exact strip_all_ws hw
    · rw [h]
      rfl
  · intro rows D mode r hr
    exact not_mem_view_of_empty_due hr
  · intro note tags
    rfl

/-- C10 witness: "task [due:]" (whitespace part empty, one "]") parses to
the empty due string, which classification and serialization both treat
like an absent due date. -/
theorem c10_empty_due_witness :
    (parse_note ("task [due:]".toList)).due = some []
    ∧ (∀ (rows : List DBNote) (D : PyDate) (mode : DueMode) (r : DBNote),
        r.due = some [] → r ∉ view_due_notes rows D mode)
    ∧ (∀ (note : Str) (tags : List Str),
        build_note_from_json note tags (some []) = build_note_from_json note tags none) :=
  c10_empty_due ("task [due:]".toList) [] ("]".toList) 5
    (by decide) (by decide) (by decide) (by decide)

/-- C3 counterexample: in "a [due:2025]]" the due chunk "2025]]" ends in
two "]" characters; Python rstrip("]") removes them all, so parse_note
returns "2025", not the "2025]" the claim's single-strip reading
predicts. -/
theorem c3_counterexample :
    (parse_note ("a [due:2025]]".toList)).due = some ("2025".toList)
    ∧ some ("2025".toList) ≠ some ("2025]".toList) :=
  ⟨by decide, by decide⟩

/-- C3 (amended): when "[due:" occurs in the raw text, parse_note splits
at its LAST occurrence (the text after it contains no further marker) and
the due date is that remainder with ALL trailing "]" characters stripped,
then whitespace-trimmed; when the marker is absent the due date is
absent. -/
theorem c3_last_marker_due : ∀ raw : Str,
    (hasOcc dueMarker raw = true →
      ∃ pre post, raw = pre ++ dueMarker ++ post
        ∧ hasOcc dueMarker post = false
        ∧ (parse_note raw).due = some (stripWs (rstripC ']' post)))
    ∧ (hasOcc dueMarker raw = false → (parse_note raw).due = none) := by
  intro raw
  constructor
  · intro hhas
    have hlo : (lastOcc dueMarker raw).isSome = true :=
      (hasOcc_iff_lastOcc dueMarker_ne_nil).mp hhas
    cases hl : lastOcc dueMarker raw with
    | none => rw [hl] at hlo; cases hlo
    | some n =>
      rcases isPre_iff.mp (lo_some_isPre hl) with ⟨t, ht⟩
      have hle := lo_some_le dueMarker_ne_nil hl
      refine ⟨raw.take n, t, ?_, ?_, ?_⟩
      · rw [List.append_assoc, ht, List.take_append_drop]
      · cases hf : firstOcc dueMarker t with
        | none => rw [hasOcc, hf]; rfl
        | some j =>
          exfalso
          have hpre := fo_some_isPre hf
          have h1 : raw.drop (n + dueMarker.length) = t := by
            have h2 := congrArg (List.drop dueMarker.length) ht
            rw [List.drop_drop] at h2
            rw [List.drop_left] at h2
            exact h2.symm
          have hshift : raw.drop (n + dueMarker.length + j) = t.drop j := by
            rw [← h1, List.drop_drop]
          rw [← hshift] at hpre
          have := lo_some_max dueMarker_ne_nil hl (n + dueMarker.length + j) hpre
          have hdm : 1 ≤ dueMarker.length := by decide
          omega
      · rw [parse_note_eq]
        show (match lastOcc dueMarker raw with
          | some i => some (stripWs (rstripC ']' (raw.drop (i + dueMarker.length))))
          | none => none) = _
        rw [hl]
        rw [Option.some_inj]
        have h1 : raw.drop (n + dueMarker.length) = t := by
          have h2 := congrArg (List.drop dueMarker.length) ht
          rw [List.drop_drop] at h2
          rw [List.drop_left] at h2
          exact h2.symm
        rw [h1]
  · intro hno
    rw [parse_note_eq]
    show (match lastOcc dueMarker raw with
      | some i => some (stripWs (rstripC ']' (raw.drop (i + dueMarker.length))))
      | none => none) = none
    rw [hasOcc_false_lastOcc dueMarker_ne_nil hno]

/-- C3 witness: applying the theorem to "x [due:2025-01-02]". -/
theorem c3_last_marker_due_witness :
    ∃ pre post, ("x [due:2025-01-02]".toList : Str) = pre ++ dueMarker ++ post
      ∧ hasOcc dueMarker post = false
      ∧ (parse_note ("x [due:2025-01-02]".toList)).due = some (stripWs (rstripC ']' post)) :=
  (c3_last_marker_due _).1 (by decide)

theorem sqlEq_true_iff {a b : Option Str} :
    sqlEq a b = true ↔ ∃ t, a = some t ∧ b = some t := by
  cases a with
  | none => simp [sqlEq]
  | some x =>
    cases b with
    | none => simp [sqlEq]
    | some y =>
      constructor
      · intro h
        have hxy : x = y := by simpa [sqlEq] using h
        exact ⟨x, rfl, by rw [hxy]⟩
      · rintro ⟨t, h1, h2⟩
        rw [Option.some_inj] at h1 h2
        subst h1
        subst h2
        simp [sqlEq]

theorem dupMatch_true_iff {u n : Str} {ts due : Option Str} {r : NoteRec} :
    dupMatch u n ts due r = true ↔
      r.user = u ∧ r.note = n ∧ (∃ t, r.tags = some t ∧ ts = some t) ∧ r.due = due := by
  simp [dupMatch, sqlIs, sqlEq_true_iff, and_assoc]

/-- C1 counterexample: the table already holds the identical record
(user "u", note "n", NULL tags, NULL due date) and the candidate has the
same user, note, absent tags and absent due date, yet add_note_to_db
returns True and inserts a second copy, because the SQL comparison
`tags = ?` never matches when both sides are NULL; the claim demands
False and no insertion. -/
theorem c1_counterexample :
    add_note_to_db [⟨"u".toList, "n".toList, none, none⟩] ("u".toList) ("n".toList) [] none
      = (true, [⟨"u".toList, "n".toList, none, none⟩, ⟨"u".toList, "n".toList, none, none⟩]) := by
  decide

/-- C1 (amended): add_note_to_db returns False and inserts no row exactly
when a persisted record exists with the same user and note, a non-NULL
stored tags string equal to the candidate's joined tags string, and an
IS-equal due date (NULL due matches only NULL due); a candidate whose
tags are absent (NULL) is never detected as a duplicate, even against an
identical NULL-tags record.  Otherwise the row is appended and True
returned. -/
theorem c1_duplicate_semantics :
    ∀ (db : List NoteRec) (u n : Str) (tags : List Str) (due : Option Str),
    ((add_note_to_db db u n tags due).1 = false ↔
      ∃ r ∈ db, r.user = u ∧ r.note = n ∧
        (∃ t, r.tags = some t ∧ storedTags tags = some t) ∧ r.due = due)
    ∧ ((add_note_to_db db u n tags due).1 = false →
        (add_note_to_db db u n tags due).2 = db)
    ∧ ((add_note_to_db db u n tags due).1 = true →
        (add_note_to_db db u n tags due).2 = db ++ [⟨u, n, storedTags tags, due⟩]) := by
  intro db u n tags due
  have hst : (if tags.isEmpty then none else some (joinSep [','] tags)) = storedTags tags := rfl
  cases hany : db.any (dupMatch u n (storedTags tags) due) with
  | true =>
    have h1 : add_note_to_db db u n tags due = (false, db) := by
      rw [add_note_to_db]
      rw [hst, if_pos hany]
    rw [h1]
    refine ⟨?_, ?_, ?_⟩
    · constructor
      · intro _
        rcases List.any_eq_true.mp hany with ⟨r, hr, hmatch⟩
        exact ⟨r, hr, dupMatch_true_iff.mp hmatch⟩
      · intro _
        rfl
    · intro _
      rfl
    · intro h
      exact absurd h (by simp)
  | false =>
    have h1 : add_note_to_db db u n tags due = (true, db ++ [⟨u, n, storedTags tags, due⟩]) := by
      rw [add_note_to_db]
      rw [hst, if_neg (by simp [hany])]
    rw [h1]
    refine ⟨?_, ?_, ?_⟩
    · constructor
      · intro h
        exact absurd h (by simp)
      · rintro ⟨r, hr, hmatch⟩
        have hcontra : db.any (dupMatch u n (storedTags tags) due) = true :=
          List.any_eq_true.mpr ⟨r, hr, dupMatch_true_iff.mpr hmatch⟩
        rw [hany] at hcontra
        cases hcontra
    · intro h
      exact absurd h (by simp)
    · intro _
      rfl

/-- C1 witness: with a tagged record present, the identical tagged
candidate is detected as a duplicate, nothing is written, and the
function returns False. -/
theorem c1_duplicate_semantics_witness :
    (add_note_to_db [⟨"u".toList, "n".toList, some ("#a".toList), some ("2025-01-01".toList)⟩]
      ("u".toList) ("n".toList) ["#a".toList] (some ("2025-01-01".toList))).1 = false
    ∧ (add_note_to_db [⟨"u".toList, "n".toList, some ("#a".toList), some ("2025-01-01".toList)⟩]
      ("u".toList) ("n".toList) ["#a".toList] (some ("2025-01-01".toList))).2 =
        [⟨"u".toList, "n".toList, some ("#a".toList), some ("2025-01-01".toList)⟩] := by
  have h1 := (c1_duplicate_semantics
    [⟨"u".toList, "n".toList, some ("#a".toList), some ("2025-01-01".toList)⟩]
    ("u".toList) ("n".toList) ["#a".toList] (some ("2025-01-01".toList))).1.mpr
    ⟨⟨"u".toList, "n".toList, some ("#a".toList), some ("2025-01-01".toList)⟩,
      by simp, rfl, rfl, ⟨"#a".toList, rfl, by decide⟩, rfl⟩
  exact ⟨h1, (c1_duplicate_semantics _ _ _ _ _).2.1 h1⟩

/-- C4: parse_note returns as tags exactly the whitespace-delimited
tokens of the portion before the last "[due:" (or of the whole text when
no marker occurs) that start with "#", in order with duplicates kept; the
body is the remaining tokens rejoined with single spaces, its token list
is exactly those remaining tokens, and no token of the body starts with
"#". -/
theorem c4_tags_and_body : ∀ raw : Str,
    (parse_note raw).tags = (splitWs (beforeLastDue raw)).filter (fun w => startsHash w)
    ∧ (parse_note raw).note =
        joinSep [' '] ((splitWs (beforeLastDue raw)).filter (fun w => !startsHash w))
    ∧ splitWs (parse_note raw).note =
        (splitWs (beforeLastDue raw)).filter (fun w => !startsHash w)
    ∧ ∀ t ∈ splitWs (parse_note raw).note, startsHash t = false := by
  intro raw
  have htoksub : ∀ t ∈ (splitWs (beforeLastDue raw)).filter (fun w => !startsHash w),
      t ≠ [] ∧ ∀ x ∈ t, x.isWhitespace = false := by
    intro t ht
    exact sw_tokens t (List.mem_of_mem_filter ht)
  have hnote : (parse_note raw).note =
      joinSep [' '] ((splitWs (beforeLastDue raw)).filter (fun w => !startsHash w)) := by
    rw [parse_note_eq]
    show stripWs (joinSep [' ']
      ((splitWs (stripWs (beforeLastDue raw))).filter (fun w => !startsHash w))) = _
    rw [sw_strip]
    exact strip_join htoksub
  refine ⟨?_, hnote, ?_, ?_⟩
  · rw [parse_note_eq]
    show (splitWs (stripWs (beforeLastDue raw))).filter (fun w => startsHash w) = _
    rw [sw_strip]
  · rw [hnote]
    exact sw_join htoksub
  · intro t ht
    rw [hnote, sw_join htoksub] at ht
    have hmem := List.mem_filter.mp ht
    simpa using hmem.2

/-- C4 witness: the theorem applied to the documented example input. -/
theorem c4_tags_and_body_witness :
    (parse_note ("Buy milk #grocery #urgent [due:2025-07-25]".toList)).tags =
      (splitWs (beforeLastDue ("Buy milk #grocery #urgent [due:2025-07-25]".toList))).filter
        (fun w => startsHash w)
    ∧ (parse_note ("Buy milk #grocery #urgent [due:2025-07-25]".toList)).note =
        joinSep [' ']
          ((splitWs (beforeLastDue ("Buy milk #grocery #urgent [due:2025-07-25]".toList))).filter
            (fun w => !startsHash w))
    ∧ splitWs (parse_note ("Buy milk #grocery #urgent [due:2025-07-25]".toList)).note =
        (splitWs (beforeLastDue ("Buy milk #grocery #urgent [due:2025-07-25]".toList))).filter
          (fun w => !startsHash w)
    ∧ ∀ t ∈ splitWs (parse_note ("Buy milk #grocery #urgent [due:2025-07-25]".toList)).note,
        startsHash t = false :=
  c4_tags_and_body ("Buy milk #grocery #urgent [due:2025-07-25]".toList)

theorem parsedNote_ext {a b : ParsedNote} (h1 : a.note = b.note) (h2 : a.tags = b.tags)
    (h3 : a.due = b.due) : a = b := by
  cases a
  cases b
  simp_all

theorem token_due_prefix_occ {s t : Str} (ht : t ∈ splitWs s)
    (hp : dueMarker.isPrefixOf t = true) :
    ∃ j, j + dueMarker.length ≤ s.length ∧ dueMarker.isPrefixOf (s.drop j) = true := by
  rcases sw_infix t ht with ⟨l, r, hlr⟩
  rcases isPre_iff.mp hp with ⟨t2, ht2⟩
  refine ⟨l.length, ?_, ?_⟩
  · have hlen := congrArg List.length hlr
    simp only [List.length_append] at hlen
    have htlen : t.length = dueMarker.length + t2.length := by
      rw [← ht2, List.length_append]
    omega
  · have hdrop : s.drop l.length = t ++ r := by
      rw [← hlr, List.append_assoc, List.drop_left]
    rw [hdrop, ← ht2, List.append_assoc]
    exact isPre_iff.mpr ⟨t2 ++ r, rfl⟩

theorem c2_no_marker {line : Str} (hno : hasOcc dueMarker line = false) :
    txtLineTriple line = parse_note line := by
  have hlo := hasOcc_false_lastOcc dueMarker_ne_nil hno
  have hfilter : (splitWs line).filter (fun w => !startsHash w && !(dueMarker.isPrefixOf w))
      = (splitWs line).filter (fun w => !startsHash w) := by
    refine List.filter_congr ?_
    intro w hw
    cases hp : dueMarker.isPrefixOf w with
    | false => simp
    | true =>
      exfalso
      rcases token_due_prefix_occ hw hp with ⟨j, _, hpre⟩
      have hsome := fo_isSome_of dueMarker_ne_nil hpre
      rw [hasOcc, hsome] at hno
      cases hno
  have hbld : beforeLastDue line = line := by
    rw [beforeLastDue, hlo]
  refine parsedNote_ext ?_ ?_ ?_
  · rw [parse_note_eq]
    show stripWs (joinSep [' ']
        ((splitWs line).filter (fun w => !startsHash w && !(dueMarker.isPrefixOf w)))) = _
    rw [hfilter]
    show _ = stripWs (joinSep [' ']
        ((splitWs (stripWs (beforeLastDue line))).filter (fun w => !startsHash w)))
    rw [hbld, sw_strip]
  · rw [parse_note_eq]
    show (splitWs line).filter (fun w => startsHash w) =
      (splitWs (stripWs (beforeLastDue line))).filter (fun w => startsHash w)
    rw [hbld, sw_strip]
  · rw [parse_note_eq]
    show txtLineDue line = _
    rw [txtLineDue, if_neg (by simp [hno])]
    show (none : Option Str) = (match lastOcc dueMarker line with
      | some i => some (stripWs (rstripC ']' (line.drop (i + dueMarker.length))))
      | none => none)
    rw [hlo]

theorem c2_marker {line pre v : Str}
    (hline : line = pre ++ dueMarker ++ v ++ [']'])
    (hfo : firstOcc dueMarker line = some pre.length)
    (hlo : lastOcc dueMarker line = some pre.length)
    (hpre : pre = [] ∨ ∃ p w, pre = p ++ [w] ∧ w.isWhitespace = true)
    (hv : ∀ x ∈ v, x.isWhitespace = false ∧ x ≠ ']') :
    txtLineTriple line = parse_note line := by
  have hline2 : line = pre ++ (dueMarker ++ (v ++ [']'])) := by
    rw [hline, List.append_assoc, List.append_assoc]
  have hline3 : line = (pre ++ dueMarker) ++ (v ++ [']']) := by
    rw [hline, List.append_assoc]
  have hTfree : ∀ x ∈ dueMarker ++ (v ++ [']']), x.isWhitespace = false := by
    intro x hx
    rcases List.mem_append.mp hx with hx | hx
    · have hdmws : ∀ y ∈ dueMarker, y.isWhitespace = false := by decide
      exact hdmws x hx
    · rcases List.mem_append.mp hx with hx | hx
      · exact (hv x hx).1
      · rw [List.mem_singleton] at hx
        subst hx
        decide
  have hTne : dueMarker ++ (v ++ [']']) ≠ [] := by
    intro h
    exact absurd (List.append_eq_nil.mp h).1 dueMarker_ne_nil
  have hsplitT : splitWs (dueMarker ++ (v ++ [']'])) = [dueMarker ++ (v ++ [']'])] :=
    sw_single hTne hTfree
  have hsplitline : splitWs line = splitWs pre ++ [dueMarker ++ (v ++ [']'])] := by
    rcases hpre with hp0 | ⟨p, w, hp, hw⟩
    · rw [hline2, hp0, List.nil_append, hsplitT]
      rfl
    · have hsp : splitWs pre = splitWs p := by
        rw [hp]
        show splitWsAux (p ++ [w]) [] = splitWsAux p []
        have : p ++ [w] = p ++ w :: [] := rfl
        rw [this, sw_append_sep hw p [] []]
        show splitWs p ++ splitWs [] = splitWs p
        simp [splitWs, splitWsAux]
      have hlinew : line = p ++ w :: (dueMarker ++ (v ++ [']'])) := by
        rw [hline2, hp, List.append_assoc]
        rfl
      rw [hlinew]
      show splitWsAux (p ++ w :: (dueMarker ++ (v ++ [']']))) [] = _
      rw [sw_append_sep hw p (dueMarker ++ (v ++ [']'])) []]
      rw [hsplitT, hsp]
      rfl
  have hpretok : ∀ t ∈ splitWs pre, dueMarker.isPrefixOf t = false := by
    intro t ht
    cases hp : dueMarker.isPrefixOf t with
    | false => rfl
    | true =>
      exfalso
      rcases token_due_prefix_occ ht hp with ⟨j, hjle, hpre2⟩
      have hdm : 1 ≤ dueMarker.length := by decide
      have hjlt : j < pre.length := by omega
      have hlift : dueMarker.isPrefixOf (line.drop j) = true := by
        have hd : line.drop j = pre.drop j ++ (dueMarker ++ (v ++ [']'])) := by
          rw [hline2]
          exact List.drop_append_of_le_length (by omega)
        rw [hd]
        exact isPre_append_right hpre2
      rw [fo_some_min hfo j hjlt] at hlift
      cases hlift
  have hTnothash : startsHash (dueMarker ++ (v ++ [']'])) = false := rfl
  have hTduepre : dueMarker.isPrefixOf (dueMarker ++ (v ++ [']'])) = true :=
    isPre_iff.mpr ⟨v ++ [']'], rfl⟩
  have hbld : beforeLastDue line = pre := by
    rw [beforeLastDue, hlo, hline2]
    exact List.take_left pre (dueMarker ++ (v ++ [']']))
  have hvnc : ∀ x ∈ v, x ≠ ']' := fun x hx => (hv x hx).2
  have hvnws : ∀ x ∈ v, x.isWhitespace = false := fun x hx => (hv x hx).1
  refine parsedNote_ext ?_ ?_ ?_
  · rw [parse_note_eq]
    show stripWs (joinSep [' ']
        ((splitWs line).filter (fun w => !startsHash w && !(dueMarker.isPrefixOf w)))) = _
    show _ = stripWs (joinSep [' ']
        ((splitWs (stripWs (beforeLastDue line))).filter (fun w => !startsHash w)))
    rw [hbld, sw_strip, hsplitline, List.filter_append]
    have hTfilt : List.filter (fun w => !startsHash w && !(dueMarker.isPrefixOf w))
        [dueMarker ++ (v ++ [']'])] = [] := by
      simp [hTduepre]
    rw [hTfilt, List.append_nil]
    have hcongr : (splitWs pre).filter (fun w => !startsHash w && !(dueMarker.isPrefixOf w))
        = (splitWs pre).filter (fun w => !startsHash w) := by
      refine List.filter_congr ?_
      intro w hw
      rw [hpretok w hw]
      simp
    rw [hcongr]
  · rw [parse_note_eq]
    show (splitWs line).filter (fun w => startsHash w) =
      (splitWs (stripWs (beforeLastDue line))).filter (fun w => startsHash w)
    rw [hbld, sw_strip, hsplitline, List.filter_append]
    have hTfilt : List.filter (fun w => startsHash w) [dueMarker ++ (v ++ [']'])] = [] := by
      simp [hTnothash]
    rw [hTfilt, List.append_nil]
  · rw [parse_note_eq]
    show txtLineDue line = _
    have hdropline : line.drop (pre.length + dueMarker.length) = v ++ [']'] := by
      have hidx : pre.length + dueMarker.length = (pre ++ dueMarker).length := by
        rw [List.length_append]
      rw [hidx, hline3, List.drop_left]
    have hforem : firstOcc dueMarker (v ++ [']']) = none := by
      cases hf2 : firstOcc dueMarker (v ++ [']']) with
      | none => rfl
      | some j =>
        exfalso
        have hpre2 := fo_some_isPre hf2
        have hshift : line.drop (pre.length + dueMarker.length + j) = (v ++ [']']).drop j := by
          rw [← hdropline, List.drop_drop]
        rw [← hshift] at hpre2
        have hmax := lo_some_max dueMarker_ne_nil hlo _ hpre2
        have hdm : 1 ≤ dueMarker.length := by decide
        omega
    have hsplit1 : pySplit dueMarker line = [pre, v ++ [']']] := by
      rw [pySplit_some dueMarker_ne_nil hfo]
      have htk : line.take pre.length = pre := by
        rw [hline2]
        exact List.take_left pre (dueMarker ++ (v ++ [']']))
      rw [htk, hdropline, pySplit_none hforem]
    have hsplit2 : pySplit [']'] (v ++ [']']) = [v, []] := by
      have hrem : v ++ [']'] = v ++ ']' :: [] := rfl
      rw [hrem, pySplit_some (by simp) (fo_single_append hvnc)]
      have htk : (v ++ ']' :: []).take v.length = v := List.take_left v (']' :: [])
      rw [htk]
      have hdr : (v ++ ']' :: []).drop (v.length + [']'].length) = [] := by
        have hlen2 : v.length + [']'].length = (v ++ [']']).length := by
          rw [List.length_append]
        rw [hlen2]
        rw [List.drop_length]
      rw [hdr]
      rfl
    rw [txtLineDue, if_pos (by rw [hasOcc, hfo]; rfl)]
    rw [hsplit1]
    show some ((pySplit [']'] (v ++ [']'])).headD []) = _
    rw [hsplit2]
    show some v = (match lastOcc dueMarker line with
      | some i => some (stripWs (rstripC ']' (line.drop (i + dueMarker.length))))
      | none => none)
    rw [hlo]
    show some v = some (stripWs (rstripC ']' (line.drop (pre.length + dueMarker.length))))
    rw [hdropline]
    rw [rstrip_append_one hvnc]
    rw [strip_nows hvnws]

/-- C2 counterexample: on the line "a [due:x] b" the import loop extracts
(body "a b", no tags, due "x") — it keeps the token "b" after the marker
and cuts the due value at the first "]" — while parse_note returns
(body "a", no tags, due "x] b"); the two triples differ. -/
theorem c2_counterexample :
    txtLineTriple ("a [due:x] b".toList) =
      { note := "a b".toList, tags := [], due := some ("x".toList) }
    ∧ parse_note ("a [due:x] b".toList) =
      { note := "a".toList, tags := [], due := some ("x] b".toList) }
    ∧ txtLineTriple ("a [due:x] b".toList) ≠ parse_note ("a [due:x] b".toList) :=
  ⟨by decide, by decide, by decide⟩

/-- C2 (amended): the (body, tags, due_date) triple the loop body of
import_txt_to_db passes to the store equals parse_note of the whole line
when the line contains no "[due:" marker, and also when its unique
"[due:" marker sits at a token boundary (preceded by nothing or by
whitespace) and closes the line as "[due:v]" with v free of whitespace
and "]".  On other lines the two extractions may disagree, as the
counterexample shows. -/
theorem c2_import_matches_parse : ∀ (line pre v : Str),
    (hasOcc dueMarker line = false → txtLineTriple line = parse_note line)
    ∧ (line = pre ++ dueMarker ++ v ++ [']'] →
       firstOcc dueMarker line = some pre.length →
       lastOcc dueMarker line = some pre.length →
       (pre = [] ∨ ∃ p w, pre = p ++ [w] ∧ w.isWhitespace = true) →
       (∀ x ∈ v, x.isWhitespace = false ∧ x ≠ ']') →
       txtLineTriple line = parse_note line) :=
  fun _ _ _ =>
    ⟨fun hno => c2_no_marker hno,
     fun h1 h2 h3 h4 h5 => c2_marker h1 h2 h3 h4 h5⟩

/-- C2 witness: on the well-formed line from the repository's test suite
the import loop and parse_note agree. -/
theorem c2_import_matches_parse_witness :
    txtLineTriple ("Buy groceries #errand [due:2025-07-31]".toList) =
      parse_note ("Buy groceries #errand [due:2025-07-31]".toList) :=
  (c2_import_matches_parse ("Buy groceries #errand [due:2025-07-31]".toList)
      ("Buy groceries #errand ".toList) ("2025-07-31".toList)).2
    (by decide) (by decide) (by decide)
    (Or.inr ⟨"Buy groceries #errand".toList, ' ', by decide, by decide⟩)
    (by decide)
